import Mathlib

/-!
Shallow embedding of the extraction-and-summarization core of the
`advanced-news-scraper` repository, together with theorems checking the
natural-language specification against it.

Strings of the Python source are modelled as `List Char`; Python floats are
modelled as `ℚ` (every float value is rational; rational arithmetic is exact
where floats round).  `math.sqrt` is kept as a parameter `sqrtQ : ℕ → ℚ` of the
summarizer definitions: the theorems below assume of it only what is true of
the real square root (positivity on positive inputs), so they hold in
particular for the value actually computed by the source.
-/

namespace News

/-- Python whitespace (`str.strip`, regex `\s`): space, tab, newline, carriage
return, vertical tab, form feed. -/
def isWS (c : Char) : Bool :=
  c == ' ' || c == '\t' || c == '\n' || c == '\r' ||
    c == Char.ofNat 11 || c == Char.ofNat 12

/-- Python `str.lower` (ASCII model). -/
def lowerL (s : List Char) : List Char := s.map Char.toLower

/-- Regex `\w` word characters `[0-9A-Za-z_]` (ASCII model). -/
def isWordChar (c : Char) : Bool := c.isAlphanum || c == '_'

/-- Python `str.strip`: drop leading and trailing whitespace. -/
def strip (s : List Char) : List Char :=
  ((s.dropWhile isWS).reverse.dropWhile isWS).reverse

/-- Maximal runs of characters satisfying `p`: the matches of `re.findall`
for a pattern matching one-or-more such characters.  `acc` holds the current
run, reversed. -/
def runsAux (p : Char → Bool) : List Char → List Char → List (List Char)
  | [], acc => if acc.isEmpty then [] else [acc.reverse]
  | c :: rest, acc =>
    if p c then runsAux p rest (c :: acc)
    else if acc.isEmpty then runsAux p rest []
    else acc.reverse :: runsAux p rest []

/-- `_tokenize`: `re.findall(r"\b\w+\b", text.lower())`, i.e. the maximal
word-character runs of the lower-cased text. -/
def tokenize (s : List Char) : List (List Char) := runsAux isWordChar (lowerL s) []

/-- The sentence-boundary lookbehind class `[.!?]` of `_SENTENCE_SPLIT_RE`. -/
def isSentEnd (c : Char) : Bool := c == '.' || c == '!' || c == '?'

/-- Whether a list starts with a whitespace character. -/
def headIsWS : List Char → Bool
  | [] => false
  | c :: _ => isWS c

/-- `_SENTENCE_SPLIT_RE.split`, the regex being `(?<=[.!?])\s+`: a sentence
boundary is a whitespace run immediately preceded by `.`, `!` or `?`.  Here a
fragment keeps the separating whitespace run as its leading whitespace (each
fragment is stripped by `splitSentences` right after, exactly as the Python
list comprehension strips every fragment, so the two readings agree). -/
def splitReAux : List Char → List Char → List (List Char)
  | [], acc => [acc.reverse]
  | c :: rest, acc =>
    if isSentEnd c && headIsWS rest then
      (c :: acc).reverse :: splitReAux rest []
    else
      splitReAux rest (c :: acc)

/-- `_split_sentences`: strip the text, split on sentence boundaries, strip
each fragment and drop the empty ones. -/
def splitSentences (text : List Char) : List (List Char) :=
  let t := strip text
  if t.isEmpty then []
  else ((splitReAux t []).map strip).filter fun s => !s.isEmpty

/-- `overlap`: the sum, over each distinct query token, of that token's
occurrence count in the sentence's token list (`sum(token_counts[t] for t in
query_token_set if t in token_counts)`). -/
def overlap (queryTokens tokens : List (List Char)) : ℕ :=
  (queryTokens.dedup.map fun t => tokens.count t).sum

/-- `_score_sentences`: each sentence is scored `overlap / sqrt(token_count)`,
and exactly `0` when it has no tokens.  Returns `(index, score)` pairs in
input order. -/
def scoreSentences (sqrtQ : ℕ → ℚ) (sentences queryTokens : List (List Char)) :
    List (ℕ × ℚ) :=
  sentences.enum.map fun p =>
    let tokens := tokenize p.2
    if tokens.isEmpty then (p.1, 0)
    else (p.1, (overlap queryTokens tokens : ℚ) / sqrtQ tokens.length)

/-- Python `int(...)` applied to a number: truncation toward zero. -/
def pyInt (q : ℚ) : ℤ := if 0 ≤ q then ⌊q⌋ else ⌈q⌉

/-- Python `max` of a list of numbers (the empty case never arises where the
source calls it). -/
def listMax : List ℚ → ℚ
  | [] => 0
  | [x] => x
  | x :: y :: rest => max x (listMax (y :: rest))

/-- `_compute_overall_score`: `0` for an empty score list, the fixed baseline
`40` when the maximum raw score is `≤ 0`, else `int(50 + 50 * min(1.0,
avg_score / max_score))`. -/
def computeOverallScore (scores : List (ℕ × ℚ)) : ℤ :=
  if scores.isEmpty then 0
  else
    let rawScores := scores.map Prod.snd
    let maxScore := listMax rawScores
    if maxScore ≤ 0 then 40
    else
      let avgScore := rawScores.sum / (rawScores.length : ℚ)
      let normalized := min 1 (avgScore / maxScore)
      pyInt (50 + 50 * normalized)

/-- `sorted(scores, key=lambda x: x[1], reverse=True)`: Python's `sorted` is a
stable sort; with `reverse=True` it orders keys descending while preserving the
input order of equal keys.  Modelled by stable insertion sort with the
(total, transitive) relation "`a`'s score is at least `b`'s". -/
def sortByScoreDesc (scores : List (ℕ × ℚ)) : List (ℕ × ℚ) :=
  scores.insertionSort fun a b => b.2 ≤ a.2

/-- The `selected_indices` value computed inside `summarize`: if every score
is `≤ 0`, the first `min(max_sentences, len(sentences))` indices in order;
otherwise the indices of the top `max_sentences` scored sentences, re-sorted
ascending (`sorted(top_indices)`). -/
def selectedIndices (sqrtQ : ℕ → ℚ) (sentences queryTokens : List (List Char))
    (maxSentences : ℕ) : List ℕ :=
  let scores := scoreSentences sqrtQ sentences queryTokens
  let sortedByScore := sortByScoreDesc scores
  if sortedByScore.all fun p => decide (p.2 ≤ 0) then
    List.range (min maxSentences sentences.length)
  else
    let topIndices := (sortedByScore.take maxSentences).map Prod.fst
    topIndices.insertionSort fun a b => a ≤ b

/-- The dictionary returned by `summarize`. -/
structure SummaryResult where
  title : List Char
  summary : List Char
  score : ℤ
deriving DecidableEq, Repr

/-- Python `a or b` on strings: the empty string is falsy. -/
def pyOr (a b : List Char) : List Char := if a.isEmpty then b else a

/-- Python `a or b` where `a` is `Optional[str]`: `None` and `""` are falsy. -/
def pyOrOpt (a : Option (List Char)) (b : List Char) : List Char :=
  match a with
  | none => b
  | some s => pyOr s b

/-- The literal `"Untitled"`. -/
def untitled : List Char := "Untitled".data

/-- `summarize(text, query=..., metadata_title=..., max_sentences=...)`. -/
def summarize (sqrtQ : ℕ → ℚ) (text query : List Char)
    (metadataTitle : Option (List Char)) (maxSentences : ℕ) : SummaryResult :=
  let text := strip text
  let queryTokens := tokenize query
  if text.isEmpty then
    { title := pyOrOpt metadataTitle (pyOr query untitled), summary := [], score := 0 }
  else
    let sentences := splitSentences text
    if sentences.isEmpty then
      { title := pyOrOpt metadataTitle (pyOr query untitled), summary := [], score := 0 }
    else
      let sortedByScore := sortByScoreDesc (scoreSentences sqrtQ sentences queryTokens)
      let sel := selectedIndices sqrtQ sentences queryTokens maxSentences
      let bullets := sel.map fun idx => "- ".data ++ sentences.getD idx []
      let summaryMd := List.intercalate "\n".data bullets
      let overallScore := computeOverallScore sortedByScore
      let title := pyOrOpt metadataTitle
        (pyOr ((sentences.headD []).take 120) (pyOr query untitled))
      { title := title, summary := summaryMd, score := overallScore }

/-!
HTML document model for `article_parser.py`.  A document is the list of
top-level parsed nodes; BeautifulSoup's `find`, `find_all` and `select`
traverse the tree in document order (pre-order).  `Node` and `NodeList` are
mutually inductive so that every recursion over the tree is structural and
kernel-evaluable.
-/

mutual
/-- A parsed HTML node: an element with tag name, attributes and children, or
a text node. -/
inductive Node where
  | text (s : List Char)
  | elem (tag : String) (attrs : List (String × List Char)) (children : NodeList)
deriving DecidableEq, Repr
/-- Children of an element (mutual with `Node`). -/
inductive NodeList where
  | nil
  | cons (head : Node) (tail : NodeList)
deriving DecidableEq, Repr
end

/-- Convert an ordinary list of nodes to a `NodeList` (for writing examples). -/
def toNodeList : List Node → NodeList
  | [] => .nil
  | n :: ns => .cons n (toNodeList ns)

/-- Element constructor taking its children as an ordinary list. -/
def Node.el (tag : String) (attrs : List (String × List Char))
    (children : List Node) : Node :=
  .elem tag attrs (toNodeList children)

mutual
/-- A node together with all of its descendants, in document (pre-)order. -/
def nodeAll : Node → List Node
  | .text s => [.text s]
  | .elem t a cs => .elem t a cs :: nlAll cs
/-- All nodes of a forest with their descendants, in document order. -/
def nlAll : NodeList → List Node
  | .nil => []
  | .cons n ns => nodeAll n ++ nlAll ns
end

/-- The tag name of an element node. -/
def Node.tagName : Node → Option String
  | .text _ => none
  | .elem t _ _ => some t

/-- `tag.get(key)` / `tag[key]`: the first attribute with the given name. -/
def Node.getAttr : Node → String → Option (List Char)
  | .text _, _ => none
  | .elem _ attrs _, k => (attrs.find? fun p => p.1 == k).map Prod.snd

/-- BeautifulSoup `tag.string`: a text node's content; for an element, the
`string` of its single child if it has exactly one, else `None`. -/
def Node.nodeString : Node → Option (List Char)
  | .text s => some s
  | .elem _ _ (.cons c .nil) => c.nodeString
  | .elem _ _ _ => none

/-- `soup.find(...)` with an arbitrary predicate: the first matching node in
document order. -/
def findNode (doc : NodeList) (p : Node → Bool) : Option Node :=
  (nlAll doc).find? p

/-- `soup.find_all(...)`: every matching node in document order. -/
def findAllNode (doc : NodeList) (p : Node → Bool) : List Node :=
  (nlAll doc).filter p

/-- Whether a node is an element with the given tag name. -/
def isTag (t : String) (n : Node) : Bool := n.tagName == some t

/-- `soup.find(tagname, attr=value)`: first element with that tag whose
attribute equals the given string. -/
def findTagAttr (doc : NodeList) (t k : String) (v : List Char) : Option Node :=
  findNode doc fun n => isTag t n && (n.getAttr k == some v)

/-- Truthiness of `tag.get(key)`: the attribute is present and non-empty. -/
def attrTruthy (n : Node) (k : String) : Bool :=
  match n.getAttr k with
  | some v => !v.isEmpty
  | none => false

/-- The whitespace-separated tokens of an attribute value (BeautifulSoup
treats `rel` and `class` as multi-valued attributes). -/
def attrTokens (v : List Char) : List (List Char) := runsAux (fun c => !isWS c) v []

/-- `soup.find("link", rel="canonical")`: `rel` is multi-valued, so the match
is against each of its tokens. -/
def findLinkRelCanonical (doc : NodeList) : Option Node :=
  findNode doc fun n => isTag "link" n &&
    (match n.getAttr "rel" with
     | some v => (attrTokens v).contains "canonical".data
     | none => false)

/-- The class filter `lambda c: c and "author" in c.lower()`, applied to each
token of the (multi-valued) `class` attribute. -/
def classTokenHasAuthor (v : List Char) : Bool :=
  (attrTokens v).any fun tok => !tok.isEmpty && decide ("author".data <:+: lowerL tok)

/-- `soup.find("span", attrs={"class": lambda c: c and "author" in c.lower()})`. -/
def findSpanAuthorClass (doc : NodeList) : Option Node :=
  findNode doc fun n => isTag "span" n &&
    (match n.getAttr "class" with
     | some v => classTokenHasAuthor v
     | none => false)

/-- The dictionary built by `_extract_metadata`. -/
structure Metadata where
  canonicalUrl : Option (List Char)
  title : Option (List Char)
  description : Option (List Char)
  image : Option (List Char)
  source : Option (List Char)
  author : Option (List Char)
  keywords : Option (List Char)
  published : Option (List Char)
  languageCode : Option (List Char)
deriving DecidableEq, Repr

/-- `if el and el.get("content"): strip(el["content"])` — the pattern used for
every meta-content field of `_extract_metadata`. -/
def contentOf (el : Option Node) : Option (List Char) :=
  match el with
  | some n =>
    match n.getAttr "content" with
    | some c => if c.isEmpty then none else some (strip c)
    | none => none
  | none => none

/-- `metadata["canonicalUrl"]`: the canonical link's `href` taken verbatim
(the source does not strip it), else the request URL. -/
def canonicalUrlOf (doc : NodeList) (url : List Char) : Option (List Char) :=
  match findLinkRelCanonical doc with
  | some el =>
    match el.getAttr "href" with
    | some v => if v.isEmpty then some url else some v
    | none => some url
  | none => some url

/-- `metadata["title"]`: the stripped `<title>` string when truthy, overridden
by the content of `find("meta", property="og:title") or find("meta",
attrs={"name": "title"})` when that element exists and has truthy content. -/
def titleOf (doc : NodeList) : Option (List Char) :=
  let fromTitleTag : Option (List Char) :=
    match findNode doc (isTag "title") with
    | some t =>
      match t.nodeString with
      | some s => if s.isEmpty then none else some (strip s)
      | none => none
    | none => none
  (contentOf ((findTagAttr doc "meta" "property" "og:title".data) <|>
    (findTagAttr doc "meta" "name" "title".data))) <|> fromTitleTag

/-- `metadata["description"]`. -/
def descriptionOf (doc : NodeList) : Option (List Char) :=
  contentOf ((findTagAttr doc "meta" "name" "description".data) <|>
    (findTagAttr doc "meta" "property" "og:description".data))

/-- `metadata["image"]`. -/
def imageOf (doc : NodeList) : Option (List Char) :=
  contentOf (findTagAttr doc "meta" "property" "og:image".data)

/-- `metadata["source"]`. -/
def sourceOf (doc : NodeList) : Option (List Char) :=
  contentOf ((findTagAttr doc "meta" "property" "og:site_name".data) <|>
    (findTagAttr doc "meta" "name" "publisher".data))

/-- `metadata["author"]`: the first of the `name="author"` meta, the
`article:author` meta, or the first `<span>` whose class filter matches; read
its meta content when it is a meta tag with truthy content, else its
`.string` when truthy. -/
def authorOf (doc : NodeList) : Option (List Char) :=
  match (findTagAttr doc "meta" "name" "author".data) <|>
      (findTagAttr doc "meta" "property" "article:author".data) <|>
      findSpanAuthorClass doc with
  | some el =>
    if isTag "meta" el && attrTruthy el "content" then
      match el.getAttr "content" with
      | some c => some (strip c)
      | none => none
    else
      match el.nodeString with
      | some s => if s.isEmpty then none else some (strip s)
      | none => none
  | none => none

/-- `metadata["keywords"]`. -/
def keywordsOf (doc : NodeList) : Option (List Char) :=
  contentOf (findTagAttr doc "meta" "name" "keywords".data)

/-- `metadata["published"]`. -/
def publishedOf (doc : NodeList) : Option (List Char) :=
  contentOf ((findTagAttr doc "meta" "property" "article:published_time".data) <|>
    (findTagAttr doc "meta" "name" "pubdate".data) <|>
    (findTagAttr doc "meta" "name" "date".data))

/-- `metadata["languageCode"]`. -/
def languageCodeOf (doc : NodeList) : Option (List Char) :=
  match findNode doc (isTag "html") with
  | some el =>
    match el.getAttr "lang" with
    | some v => if v.isEmpty then none else some (strip v)
    | none => none
  | none => none

/-- `_extract_metadata(soup, url)`. -/
def extractMetadata (doc : NodeList) (url : List Char) : Metadata :=
  { canonicalUrl := canonicalUrlOf doc url
    title := titleOf doc
    description := descriptionOf doc
    image := imageOf doc
    source := sourceOf doc
    author := authorOf doc
    keywords := keywordsOf doc
    published := publishedOf doc
    languageCode := languageCodeOf doc }

mutual
/-- The descendant text-node contents of a node, in document order. -/
def nodeTexts : Node → List (List Char)
  | .text s => [s]
  | .elem _ _ cs => nlTexts cs
/-- The descendant text-node contents of a forest, in document order. -/
def nlTexts : NodeList → List (List Char)
  | .nil => []
  | .cons n ns => nodeTexts n ++ nlTexts ns
end

/-- `p.get_text(" ", strip=True)`: strip each descendant string, drop the
empty ones, join with a single space. -/
def getText (n : Node) : List Char :=
  List.intercalate " ".data (((nodeTexts n).map strip).filter fun s => !s.isEmpty)

/-- The strict descendants of a node. -/
def descendantsOf (n : Node) : List Node :=
  match n with
  | .text _ => []
  | .elem _ _ cs => nlAll cs

/-- `tag.find_all("p")`: the descendant paragraph elements in document order. -/
def paragraphsOf (n : Node) : List Node :=
  (descendantsOf n).filter (isTag "p")

/-- The CSS selector `main, div[id*=content], div[class*=content]`
(`[*=]` is raw-substring matching on the attribute value). -/
def isContentCandidate (n : Node) : Bool :=
  isTag "main" n ||
  (isTag "div" n && (match n.getAttr "id" with
    | some v => decide ("content".data <:+: v)
    | none => false)) ||
  (isTag "div" n && (match n.getAttr "class" with
    | some v => decide ("content".data <:+: v)
    | none => false))

/-- `soup.select("main, div[id*=content], div[class*=content]")`: all matches
in document order. -/
def selectCandidates (doc : NodeList) : List Node :=
  (nlAll doc).filter isContentCandidate

/-- The candidate loop of `_extract_text`: `paragraphs = candidate.find_all("p");
if paragraphs: break` — the paragraphs of the first candidate that has any
(of any length), else the empty list. -/
def firstParagraphs : List Node → List Node
  | [] => []
  | c :: rest =>
    let ps := paragraphsOf c
    if ps.isEmpty then firstParagraphs rest else ps

/-- The paragraph list `_extract_text` settles on: the `<article>` element's
paragraphs if one exists, else the candidate loop's result, and if that is
still empty, every `<p>` in the document. -/
def extractParagraphs (doc : NodeList) : List Node :=
  let paragraphs :=
    match findNode doc (isTag "article") with
    | some a => paragraphsOf a
    | none => firstParagraphs (selectCandidates doc)
  if paragraphs.isEmpty then findAllNode doc (isTag "p") else paragraphs

/-- The `texts` list of `_extract_text`: each paragraph's
`get_text(" ", strip=True)`, keeping only those of length `≥ 40`. -/
def extractParagraphTexts (doc : NodeList) : List (List Char) :=
  ((extractParagraphs doc).map getText).filter fun t => !(t.length < 40)

/-- `_extract_text(soup)`: the kept texts joined by newlines, stripped. -/
def extractText (doc : NodeList) : List Char :=
  strip (List.intercalate "\n".data (extractParagraphTexts doc))

/-- A concrete stand-in for the square-root parameter, used only to
instantiate closed statements (the theorems hold for every positive function
in the `sqrtQ` slot, hence for the value of real `math.sqrt`). -/
def sqrtOne : ℕ → ℚ := fun _ => 1

/-! ### Lemmas about `strip` -/

theorem strip_eq_nil_all {l : List Char} (h : strip l = []) :
    ∀ x ∈ l, isWS x = true := by
  intro x hx
  unfold strip at h
  have h1 : List.dropWhile isWS ((List.dropWhile isWS l).reverse) = [] := by
    have h0 := congrArg List.reverse h
    simpa using h0
  have h2 : ∀ y ∈ List.dropWhile isWS l, isWS y = true := by
    intro y hy
    exact List.dropWhile_eq_nil_iff.mp h1 y (List.mem_reverse.mpr hy)
  have hx' : x ∈ List.takeWhile isWS l ++ List.dropWhile isWS l := by
    rw [List.takeWhile_append_dropWhile]; exact hx
  rcases List.mem_append.mp hx' with h5 | h5
  · exact List.mem_takeWhile_imp h5
  · exact h2 x h5

theorem strip_ne_nil_of_mem {l : List Char} {c : Char} (hc : c ∈ l)
    (hws : isWS c = false) : strip l ≠ [] := by
  intro h
  rw [strip_eq_nil_all h c hc] at hws
  exact Bool.noConfusion hws

theorem head?_dropWhile_clean {p : Char → Bool} {l : List Char} {c : Char}
    (h : (List.dropWhile p l).head? = some c) : p c = false := by
  induction l with
  | nil => simp [List.dropWhile] at h
  | cons a t ih =>
    rw [List.dropWhile_cons] at h
    by_cases hp : p a
    · rw [if_pos hp] at h; exact ih h
    · rw [if_neg hp] at h
      simp only [List.head?_cons, Option.some.injEq] at h
      subst h
      exact Bool.eq_false_iff.mpr hp

theorem getLast?_strip_clean {l : List Char} {c : Char}
    (h : (strip l).getLast? = some c) : isWS c = false := by
  unfold strip at h
  rw [List.getLast?_reverse] at h
  exact head?_dropWhile_clean h

theorem head?_strip_clean {l : List Char} {c : Char}
    (h : (strip l).head? = some c) : isWS c = false := by
  unfold strip at h
  rw [List.head?_reverse] at h
  -- `c` is the last element of `dropWhile isWS (reverse (dropWhile isWS l))`,
  -- which is a suffix of `reverse (dropWhile isWS l)`; a non-empty suffix has
  -- the same last element, which is the head of `dropWhile isWS l`.
  have hsuf : List.dropWhile isWS ((List.dropWhile isWS l).reverse) <:+
      (List.dropWhile isWS l).reverse := List.dropWhile_suffix isWS
  obtain ⟨t, ht⟩ := hsuf
  have hne : List.dropWhile isWS ((List.dropWhile isWS l).reverse) ≠ [] := by
    intro hn; rw [hn] at h; simp at h
  have h2 : ((List.dropWhile isWS l).reverse).getLast? = some c := by
    rw [← ht, List.getLast?_append_of_ne_nil _ hne]; exact h
  rw [List.getLast?_reverse] at h2
  exact head?_dropWhile_clean h2

theorem strip_of_clean {l : List Char}
    (h1 : ∀ c, l.head? = some c → isWS c = false)
    (h2 : ∀ c, l.getLast? = some c → isWS c = false) : strip l = l := by
  have hd : List.dropWhile isWS l = l := by
    cases l with
    | nil => rfl
    | cons a t =>
      rw [List.dropWhile_cons, if_neg]
      rw [h1 a rfl]
      exact Bool.false_ne_true
  unfold strip
  rw [hd]
  have hr : List.dropWhile isWS l.reverse = l.reverse := by
    cases hrv : l.reverse with
    | nil => rfl
    | cons a t =>
      rw [List.dropWhile_cons, if_neg]
      have : l.getLast? = some a := by
        rw [← List.head?_reverse, hrv]; rfl
      rw [h2 a this]
      exact Bool.false_ne_true
  rw [hr, List.reverse_reverse]

theorem strip_idem (l : List Char) : strip (strip l) = strip l := by
  by_cases h : strip l = []
  · rw [h]; rfl
  · exact strip_of_clean (fun c hc => head?_strip_clean hc)
      (fun c hc => getLast?_strip_clean hc)

/-! ### Lemmas about sentence splitting -/

theorem splitReAux_exists_frag (l : List Char) :
    ∀ (acc : List Char) (d : Char), l.getLast? = some d → isWS d = false →
    ∃ frag ∈ splitReAux l acc, strip frag ≠ [] := by
  induction l with
  | nil => intro acc d hd _; simp at hd
  | cons c rest ih =>
    intro acc d hd hws
    cases rest with
    | nil =>
      have hdc : c = d := by simpa using hd
      rw [splitReAux, if_neg (by simp [headIsWS]), splitReAux]
      refine ⟨(c :: acc).reverse, by simp, ?_⟩
      exact strip_ne_nil_of_mem (c := c) (l := (c :: acc).reverse) (by simp)
        (by rw [hdc]; exact hws)
    | cons r rest' =>
      have hd' : (r :: rest').getLast? = some d := by
        rwa [List.getLast?_cons_cons] at hd
      by_cases hcond : (isSentEnd c && headIsWS (r :: rest')) = true
      · rw [splitReAux, if_pos hcond]
        obtain ⟨frag, hm, hs⟩ := ih [] d hd' hws
        exact ⟨frag, List.mem_cons_of_mem _ hm, hs⟩
      · rw [splitReAux, if_neg hcond]
        exact ih (c :: acc) d hd' hws

theorem splitSentences_ne_nil {text : List Char} (h : strip text ≠ []) :
    splitSentences text ≠ [] := by
  obtain ⟨d, hd⟩ : ∃ d, (strip text).getLast? = some d := by
    cases hq : (strip text).getLast? with
    | none => exact absurd (List.getLast?_eq_none_iff.mp hq) h
    | some a => exact ⟨a, rfl⟩
  have hws : isWS d = false := getLast?_strip_clean hd
  obtain ⟨frag, hm, hs⟩ := splitReAux_exists_frag (strip text) [] d hd hws
  unfold splitSentences
  rw [if_neg (by simpa [List.isEmpty_iff] using h)]
  refine List.ne_nil_of_mem (a := strip frag) (List.mem_filter.mpr ⟨?_, ?_⟩)
  · exact List.mem_map_of_mem strip hm
  · simpa [List.isEmpty_iff] using hs

theorem splitSentences_strip (text : List Char) :
    splitSentences (strip text) = splitSentences text := by
  unfold splitSentences
  rw [strip_idem]

/-! ### Lemmas about `listMax` and `computeOverallScore` -/

theorem listMax_nonpos {l : List ℚ} (h : ∀ x ∈ l, x ≤ 0) : listMax l ≤ 0 := by
  induction l with
  | nil => simp [listMax]
  | cons a t ih =>
    cases t with
    | nil => simpa [listMax] using h a (by simp)
    | cons b t' =>
      rw [listMax]
      exact max_le (h a (by simp)) (ih fun x hx => h x (List.mem_cons_of_mem _ hx))

theorem computeOverallScore_eq_forty {scores : List (ℕ × ℚ)} (h0 : scores ≠ [])
    (h : listMax (scores.map Prod.snd) ≤ 0) : computeOverallScore scores = 40 := by
  unfold computeOverallScore
  rw [if_neg (by simpa [List.isEmpty_iff] using h0)]
  simp only []
  rw [if_pos h]

/-! ### Lemmas about sentence scores -/

theorem overlap_nil_query (tokens : List (List Char)) : overlap [] tokens = 0 := by
  simp [overlap]

theorem scoreSentences_snd_zero {sqrtQ : ℕ → ℚ} {sents : List (List Char)}
    {p : ℕ × ℚ} (hp : p ∈ scoreSentences sqrtQ sents []) : p.2 = 0 := by
  unfold scoreSentences at hp
  obtain ⟨q, hq, rfl⟩ := List.mem_map.mp hp
  by_cases ht : (tokenize q.2).isEmpty
  · simp [ht]
  · simp [ht, overlap_nil_query]

theorem scoreSentences_snd_nonneg {sqrtQ : ℕ → ℚ}
    (hsqrt : ∀ n : ℕ, 0 < n → 0 < sqrtQ n) {sents qts : List (List Char)}
    {p : ℕ × ℚ} (hp : p ∈ scoreSentences sqrtQ sents qts) : 0 ≤ p.2 := by
  unfold scoreSentences at hp
  obtain ⟨q, hq, rfl⟩ := List.mem_map.mp hp
  by_cases ht : (tokenize q.2).isEmpty
  · simp [ht]
  · simp only [ht, Bool.false_eq_true, if_false]
    have hlen : 0 < (tokenize q.2).length :=
      List.length_pos.mpr fun hn => ht (by rw [hn]; rfl)
    exact div_nonneg (Nat.cast_nonneg _) (le_of_lt (hsqrt _ hlen))

theorem scoreSentences_length (sqrtQ : ℕ → ℚ) (sents qts : List (List Char)) :
    (scoreSentences sqrtQ sents qts).length = sents.length := by
  unfold scoreSentences
  rw [List.length_map, List.enum_length]

theorem sortByScoreDesc_perm (scores : List (ℕ × ℚ)) :
    (sortByScoreDesc scores).Perm scores :=
  List.perm_insertionSort _ _

theorem sortByScoreDesc_ne_nil {sqrtQ : ℕ → ℚ} {sents qts : List (List Char)}
    (hsent : sents ≠ []) :
    sortByScoreDesc (scoreSentences sqrtQ sents qts) ≠ [] := by
  intro hnil
  have hlen := (sortByScoreDesc_perm (scoreSentences sqrtQ sents qts)).length_eq
  rw [hnil, scoreSentences_length] at hlen
  exact hsent (List.length_eq_zero.mp hlen.symm)

/-! ### Claim C1 -/

/-- C1, counterexample: the claim "for every text, `summarize` with an empty
query yields score 40" fails at the empty text, where the empty-text branch of
`summarize` returns score 0, not 40. -/
theorem c1_counterexample :
    (summarize sqrtOne [] [] none 3).score = 0 ∧
    (summarize sqrtOne [] [] none 3).score ≠ 40 := by
  constructor
  · rfl
  · decide

/-- C1 (amended): for every text that is non-empty after trimming, calling
`summarize` with a query that has zero tokens (empty or whitespace-only query)
yields score exactly 40: the empty query token set gives overlap 0, hence
score 0, to every sentence, so the maximum raw score is ≤ 0 and the baseline-40
branch of the overall-score computation fires.  (For empty or whitespace-only
text, `summarize` instead returns score 0 from its empty-text branch.) -/
theorem c1_empty_query_score_forty (sqrtQ : ℕ → ℚ) (text query : List Char)
    (mt : Option (List Char)) (m : ℕ) (htext : strip text ≠ [])
    (hq : tokenize query = []) :
    (summarize sqrtQ text query mt m).score = 40 := by
  have h1 : (strip text).isEmpty = false := by
    rw [Bool.eq_false_iff]
    simpa [List.isEmpty_iff] using htext
  have hsent : splitSentences (strip text) ≠ [] := by
    rw [splitSentences_strip]
    exact splitSentences_ne_nil htext
  have h2 : (splitSentences (strip text)).isEmpty = false := by
    rw [Bool.eq_false_iff]
    simpa [List.isEmpty_iff] using hsent
  simp only [summarize, h1, h2, Bool.false_eq_true, if_false, hq]
  apply computeOverallScore_eq_forty (sortByScoreDesc_ne_nil hsent)
  apply listMax_nonpos
  intro x hx
  obtain ⟨p, hp, rfl⟩ := List.mem_map.mp hx
  have hp' := (sortByScoreDesc_perm _).mem_iff.mp hp
  rw [scoreSentences_snd_zero hp']

/-- C1 witness: a concrete non-whitespace text with an empty query scores 40. -/
theorem c1_witness :
    strip "Hi there.".data ≠ [] ∧ tokenize [] = [] ∧
    (summarize sqrtOne "Hi there.".data [] none 3).score = 40 :=
  ⟨by decide, rfl,
    c1_empty_query_score_forty sqrtOne "Hi there.".data [] none 3 (by decide) rfl⟩

/-! ### Claim C2 -/

theorem pyInt_eq_floor {q : ℚ} (h : 0 ≤ q) : pyInt q = ⌊q⌋ := if_pos h

theorem computeOverallScore_pos_branch {scores : List (ℕ × ℚ)} (h0 : scores ≠ [])
    (h : ∀ p ∈ scores, 0 ≤ p.2)
    (hpos : 0 < listMax (scores.map Prod.snd)) :
    computeOverallScore scores =
      ⌊(50 : ℚ) + 50 * min 1 ((scores.map Prod.snd).sum /
        ((scores.map Prod.snd).length : ℚ) / listMax (scores.map Prod.snd))⌋ ∧
    50 ≤ computeOverallScore scores ∧ computeOverallScore scores ≤ 100 := by
  have havg : 0 ≤ (scores.map Prod.snd).sum / ((scores.map Prod.snd).length : ℚ) := by
    apply div_nonneg _ (Nat.cast_nonneg _)
    apply List.sum_nonneg
    intro x hx
    obtain ⟨p, hp, rfl⟩ := List.mem_map.mp hx
    exact h p hp
  have hnorm0 : 0 ≤ min 1 ((scores.map Prod.snd).sum /
      ((scores.map Prod.snd).length : ℚ) / listMax (scores.map Prod.snd)) :=
    le_min zero_le_one (div_nonneg havg (le_of_lt hpos))
  have hnorm1 : min 1 ((scores.map Prod.snd).sum /
      ((scores.map Prod.snd).length : ℚ) / listMax (scores.map Prod.snd)) ≤ 1 :=
    min_le_left _ _
  have hval : computeOverallScore scores =
      pyInt ((50 : ℚ) + 50 * min 1 ((scores.map Prod.snd).sum /
        ((scores.map Prod.snd).length : ℚ) / listMax (scores.map Prod.snd))) := by
    unfold computeOverallScore
    rw [if_neg (by simpa [List.isEmpty_iff] using h0)]
    simp only []
    rw [if_neg (not_le.mpr hpos)]
  rw [hval, pyInt_eq_floor (by linarith)]
  refine ⟨rfl, ?_, ?_⟩
  · rw [Int.le_floor]
    push_cast
    linarith
  · rw [Int.floor_le_iff]
    push_cast
    linarith

theorem computeOverallScore_bounds {scores : List (ℕ × ℚ)}
    (h : ∀ p ∈ scores, 0 ≤ p.2) :
    0 ≤ computeOverallScore scores ∧ computeOverallScore scores ≤ 100 := by
  by_cases h0 : scores = []
  · subst h0
    exact ⟨le_refl _, by norm_num [computeOverallScore]⟩
  by_cases hmax : listMax (scores.map Prod.snd) ≤ 0
  · rw [computeOverallScore_eq_forty h0 hmax]
    norm_num
  · obtain ⟨-, h50, h100⟩ :=
      computeOverallScore_pos_branch h0 h (not_le.mp hmax)
    exact ⟨le_trans (by norm_num) h50, h100⟩

/-- C2: the overall 0-100 score is 0 for an empty sentence-score list; exactly
40 when the list is non-empty and the maximum raw score is ≤ 0; and otherwise
`floor(50 + 50 * min(1, avg / max))`, which lies in [50, 100].  (Sentence
scores are non-negative by construction, which is what makes Python's
truncating `int(...)` coincide with `floor`.) -/
theorem c2_overall_score_cases (scores : List (ℕ × ℚ))
    (h : ∀ p ∈ scores, 0 ≤ p.2) :
    (scores = [] → computeOverallScore scores = 0) ∧
    (scores ≠ [] → listMax (scores.map Prod.snd) ≤ 0 →
      computeOverallScore scores = 40) ∧
    (scores ≠ [] → 0 < listMax (scores.map Prod.snd) →
      computeOverallScore scores =
        ⌊(50 : ℚ) + 50 * min 1 ((scores.map Prod.snd).sum /
          ((scores.map Prod.snd).length : ℚ) / listMax (scores.map Prod.snd))⌋ ∧
      50 ≤ computeOverallScore scores ∧ computeOverallScore scores ≤ 100) := by
  refine ⟨?_, ?_, ?_⟩
  · intro h0; subst h0; rfl
  · intro h0 hmax; exact computeOverallScore_eq_forty h0 hmax
  · intro h0 hpos; exact computeOverallScore_pos_branch h0 h hpos

/-- C2 witness: a concrete one-element score list with a positive score takes
the `floor(50 + 50 * min(1, avg/max))` branch, giving a score in [50, 100]. -/
theorem c2_witness :
    (∀ p ∈ [((0 : ℕ), (2 : ℚ))], 0 ≤ p.2) ∧
    ([((0 : ℕ), (2 : ℚ))] ≠ [] → 0 < listMax ([((0 : ℕ), (2 : ℚ))].map Prod.snd) →
      computeOverallScore [((0 : ℕ), (2 : ℚ))] =
        ⌊(50 : ℚ) + 50 * min 1 (([((0 : ℕ), (2 : ℚ))].map Prod.snd).sum /
          (([((0 : ℕ), (2 : ℚ))].map Prod.snd).length : ℚ) /
          listMax ([((0 : ℕ), (2 : ℚ))].map Prod.snd))⌋ ∧
      50 ≤ computeOverallScore [((0 : ℕ), (2 : ℚ))] ∧
      computeOverallScore [((0 : ℕ), (2 : ℚ))] ≤ 100) :=
  ⟨by norm_num, (c2_overall_score_cases [((0 : ℕ), (2 : ℚ))] (by norm_num)).2.2⟩

/-! ### Claim C5 -/

/-- C5: whenever not every sentence score is ≤ 0 (the non-fallback case), the
indices of the sentences rendered in the summary bullet list — the
`selected_indices` that `summarize` renders in order — are sorted
non-decreasingly into original document order, for every sentence list, query
token list and max-sentence count. -/
theorem c5_selected_indices_sorted (sqrtQ : ℕ → ℚ)
    (sents qts : List (List Char)) (m : ℕ)
    (h : ∃ p ∈ scoreSentences sqrtQ sents qts, 0 < p.2) :
    List.Sorted (· ≤ ·) (selectedIndices sqrtQ sents qts m) := by
  have hcond : ¬((sortByScoreDesc (scoreSentences sqrtQ sents qts)).all
      (fun p => decide (p.2 ≤ 0)) = true) := by
    intro hall
    obtain ⟨p, hp, hpos⟩ := h
    have hp' : p ∈ sortByScoreDesc (scoreSentences sqrtQ sents qts) :=
      (sortByScoreDesc_perm _).mem_iff.mpr hp
    have h2 := List.all_eq_true.mp hall p hp'
    rw [decide_eq_true_iff] at h2
    exact absurd h2 (not_le.mpr hpos)
  simp only [selectedIndices]
  rw [if_neg hcond]
  exact List.sorted_insertionSort _ _

/-- C5 witness: one sentence matching the query gives a positive score, and
the selected indices come out sorted. -/
theorem c5_witness :
    (∃ p ∈ scoreSentences sqrtOne ["hi".data] ["hi".data], 0 < p.2) ∧
    List.Sorted (· ≤ ·) (selectedIndices sqrtOne ["hi".data] ["hi".data] 3) := by
  have hs : scoreSentences sqrtOne ["hi".data] ["hi".data] = [(0, (1 : ℚ))] := by
    have htok : tokenize "hi".data = ["hi".data] := by decide
    have hov : overlap ["hi".data] ["hi".data] = 1 := by decide
    simp [scoreSentences, List.enum, List.enumFrom, htok, hov, sqrtOne]
  have hx : ∃ p ∈ scoreSentences sqrtOne ["hi".data] ["hi".data], 0 < p.2 := by
    rw [hs]
    exact ⟨(0, 1), by simp, one_pos⟩
  exact ⟨hx, c5_selected_indices_sorted sqrtOne ["hi".data] ["hi".data] 3 hx⟩

/-! ### Claim C6 -/

/-- C6: if every sentence's relevance score is ≤ 0, the summarizer selects
exactly the indices of the first `min(N, sentence_count)` sentences, in
original document order. -/
theorem c6_fallback_selects_prefix (sqrtQ : ℕ → ℚ)
    (sents qts : List (List Char)) (m : ℕ)
    (h : ∀ p ∈ scoreSentences sqrtQ sents qts, p.2 ≤ 0) :
    selectedIndices sqrtQ sents qts m = List.range (min m sents.length) := by
  have hcond : (sortByScoreDesc (scoreSentences sqrtQ sents qts)).all
      (fun p => decide (p.2 ≤ 0)) = true := by
    rw [List.all_eq_true]
    intro p hp
    exact decide_eq_true (h p ((sortByScoreDesc_perm _).mem_iff.mp hp))
  simp only [selectedIndices]
  rw [if_pos hcond]

/-- C6 witness: with an empty query every score is 0, and the two sentences
selected are exactly the first `min(3, 2)` in document order. -/
theorem c6_witness :
    (∀ p ∈ scoreSentences sqrtOne ["One.".data, "Two.".data] [], p.2 ≤ 0) ∧
    selectedIndices sqrtOne ["One.".data, "Two.".data] [] 3 =
      List.range (min 3 ["One.".data, "Two.".data].length) :=
  ⟨fun _ hp => le_of_eq (scoreSentences_snd_zero hp),
    c6_fallback_selects_prefix sqrtOne ["One.".data, "Two.".data] [] 3
      fun _ hp => le_of_eq (scoreSentences_snd_zero hp)⟩

/-! ### Claim C7 -/

/-- C7: for every text, query, optional title and max-sentence count, the
score field of the `SummaryResult` returned by `summarize` is an integer in
[0, 100] (assuming only that the square-root function is positive on positive
inputs, as `math.sqrt` is). -/
theorem c7_score_in_range (sqrtQ : ℕ → ℚ)
    (hsqrt : ∀ n : ℕ, 0 < n → 0 < sqrtQ n)
    (text query : List Char) (mt : Option (List Char)) (m : ℕ) :
    0 ≤ (summarize sqrtQ text query mt m).score ∧
    (summarize sqrtQ text query mt m).score ≤ 100 := by
  by_cases h1 : (strip text).isEmpty
  · simp [summarize, h1]
  · by_cases h2 : (splitSentences (strip text)).isEmpty
    · simp [summarize, h1, h2]
    · simp only [summarize, h1, h2, Bool.false_eq_true, if_false]
      apply computeOverallScore_bounds
      intro p hp
      exact scoreSentences_snd_nonneg hsqrt ((sortByScoreDesc_perm _).mem_iff.mp hp)

/-- C7 witness: a concrete call with a positive square-root stand-in has its
score inside [0, 100]. -/
theorem c7_witness :
    (∀ n : ℕ, 0 < n → 0 < sqrtOne n) ∧
    (0 ≤ (summarize sqrtOne "One two. Three.".data "two".data none 2).score ∧
      (summarize sqrtOne "One two. Three.".data "two".data none 2).score ≤ 100) :=
  ⟨fun _ _ => one_pos,
    c7_score_in_range sqrtOne (fun _ _ => one_pos)
      "One two. Three.".data "two".data none 2⟩

/-! ### Claim C10 -/

/-- C10: the score field of `summarize` does not depend on the
`max_sentences` argument — the overall score is computed from the full sorted
score list before and independently of sentence selection. -/
theorem c10_score_independent_of_max_sentences (sqrtQ : ℕ → ℚ)
    (text query : List Char) (mt : Option (List Char)) (m1 m2 : ℕ) :
    (summarize sqrtQ text query mt m1).score =
    (summarize sqrtQ text query mt m2).score := by
  by_cases h1 : (strip text).isEmpty
  · simp [summarize, h1]
  · by_cases h2 : (splitSentences (strip text)).isEmpty
    · simp [summarize, h1, h2]
    · simp [summarize, h1, h2]

/-! ### Claim C3 -/

/-- C3, counterexample: in a document carrying a `<title>`, an `og:title` meta
and a `name="title"` meta, the extracted title is the `og:title` content
(`find(og:title) or find(name="title")` short-circuits on the first operand),
not the `name="title"` content as claimed. -/
theorem c3_counterexample :
    (extractMetadata (toNodeList [Node.el "html" [] [Node.el "head" [] [
        Node.el "title" [] [Node.text "T".data],
        Node.el "meta" [("property", "og:title".data), ("content", "OG".data)] [],
        Node.el "meta" [("name", "title".data), ("content", "NT".data)] []]]])
      "u".data).title = some "OG".data ∧
    findTagAttr (toNodeList [Node.el "html" [] [Node.el "head" [] [
        Node.el "title" [] [Node.text "T".data],
        Node.el "meta" [("property", "og:title".data), ("content", "OG".data)] [],
        Node.el "meta" [("name", "title".data), ("content", "NT".data)] []]]])
      "meta" "name" "title".data ≠ none ∧
    "OG".data ≠ "NT".data := by
  refine ⟨?_, by decide, by decide⟩
  decide

/-- C3 (amended): when the document contains an `og:title` meta tag with
non-empty content, the extracted title is that content (stripped), overriding
both `<title>` and any `name="title"` meta; the `name="title"` meta is only
consulted when no `og:title` meta element exists at all, and then it likewise
overrides `<title>`. -/
theorem c3_title_og_over_name (doc : NodeList) (url : List Char) :
    (∀ el c, findTagAttr doc "meta" "property" "og:title".data = some el →
      el.getAttr "content" = some c → c ≠ [] →
      (extractMetadata doc url).title = some (strip c)) ∧
    (findTagAttr doc "meta" "property" "og:title".data = none →
      ∀ el c, findTagAttr doc "meta" "name" "title".data = some el →
      el.getAttr "content" = some c → c ≠ [] →
      (extractMetadata doc url).title = some (strip c)) := by
  constructor
  · intro el c hfind hcont hc
    have hce : c.isEmpty = false := by
      rw [Bool.eq_false_iff]
      simpa [List.isEmpty_iff] using hc
    simp [extractMetadata, titleOf, contentOf, hfind, hcont, hce]
  · intro hnone el c hfind hcont hc
    have hce : c.isEmpty = false := by
      rw [Bool.eq_false_iff]
      simpa [List.isEmpty_iff] using hc
    simp [extractMetadata, titleOf, contentOf, hnone, hfind, hcont, hce]

/-- C3 witness: a concrete document with only an `og:title` meta (content
`" OG "`) gets title `strip " OG "`. -/
theorem c3_witness :
    (extractMetadata (toNodeList [Node.el "head" [] [
        Node.el "title" [] [Node.text "T".data],
        Node.el "meta" [("property", "og:title".data), ("content", " OG ".data)] []]])
      "u".data).title = some (strip " OG ".data) :=
  (c3_title_og_over_name (toNodeList [Node.el "head" [] [
      Node.el "title" [] [Node.text "T".data],
      Node.el "meta" [("property", "og:title".data), ("content", " OG ".data)] []]])
    "u".data).1
    (Node.el "meta" [("property", "og:title".data), ("content", " OG ".data)] [])
    " OG ".data (by decide) (by decide) (by decide)

/-! ### Claim C4 -/

/-- C4, counterexample: a document whose only author marker is a `<div>` (not
a `<span>`) with class `author` yields `author = None`, although an element
with an author class and string content "Jane" is present — the source only
searches `<span>` elements, not elements of any tag type as claimed. -/
theorem c4_counterexample :
    (extractMetadata (toNodeList [Node.el "html" [] [Node.el "body" [] [
        Node.el "div" [("class", "author".data)] [Node.text "Jane".data]]]])
      "u".data).author = none ∧
    (nlAll (toNodeList [Node.el "html" [] [Node.el "body" [] [
        Node.el "div" [("class", "author".data)] [Node.text "Jane".data]]]])).find?
      (fun n => match n.getAttr "class" with
        | some v => classTokenHasAuthor v
        | none => false) =
      some (Node.el "div" [("class", "author".data)] [Node.text "Jane".data]) ∧
    (Node.el "div" [("class", "author".data)]
      [Node.text "Jane".data]).nodeString = some "Jane".data := by
  refine ⟨?_, by decide, by decide⟩
  decide

/-- C4 (amended): if no `name="author"` meta and no `article:author` meta is
present, the author field is taken from the first `<span>` element (only
spans, not arbitrary tags) whose class attribute contains "author"
case-insensitively, reading its string content. -/
theorem c4_author_span_fallback (doc : NodeList) (url : List Char)
    (h1 : findTagAttr doc "meta" "name" "author".data = none)
    (h2 : findTagAttr doc "meta" "property" "article:author".data = none)
    (el : Node) (h3 : findSpanAuthorClass doc = some el)
    (s : List Char) (h4 : el.nodeString = some s) (h5 : s ≠ []) :
    (extractMetadata doc url).author = some (strip s) := by
  have hspan : isTag "span" el = true := by
    have hp := List.find?_some h3
    exact (Bool.and_eq_true _ _).mp hp |>.1
  have hmeta : isTag "meta" el = false := by
    unfold isTag at hspan ⊢
    rw [beq_iff_eq] at hspan
    rw [hspan]
    decide
  have hse : s.isEmpty = false := by
    rw [Bool.eq_false_iff]
    simpa [List.isEmpty_iff] using h5
  simp [extractMetadata, authorOf, h1, h2, h3, hmeta, h4, hse]

/-- C4 witness: a span with class `x-author` and string `" Jane "` provides
the author when no author metas exist. -/
theorem c4_witness :
    (extractMetadata (toNodeList [Node.el "body" [] [
        Node.el "span" [("class", "x-author meta".data)] [Node.text " Jane ".data]]])
      "u".data).author = some (strip " Jane ".data) :=
  c4_author_span_fallback (toNodeList [Node.el "body" [] [
      Node.el "span" [("class", "x-author meta".data)] [Node.text " Jane ".data]]])
    "u".data (by decide) (by decide)
    (Node.el "span" [("class", "x-author meta".data)] [Node.text " Jane ".data])
    (by decide) " Jane ".data (by decide) (by decide)

/-! ### Claim C8 -/

theorem contentOf_strip_fixed {el : Option Node} {v : List Char}
    (h : contentOf el = some v) : strip v = v := by
  rcases el with _ | n
  · exact absurd h (by simp [contentOf])
  · unfold contentOf at h
    rcases hg : n.getAttr "content" with _ | c
    · simp only [hg] at h; exact Option.noConfusion h
    · simp only [hg] at h
      by_cases hce : c.isEmpty
      · rw [if_pos hce] at h; exact absurd h (by simp)
      · rw [if_neg hce] at h
        obtain rfl := Option.some.inj h
        exact strip_idem c

theorem titleOf_strip_fixed {doc : NodeList} {v : List Char}
    (h : titleOf doc = some v) : strip v = v := by
  simp only [titleOf] at h
  rcases hc : contentOf ((findTagAttr doc "meta" "property" "og:title".data) <|>
      (findTagAttr doc "meta" "name" "title".data)) with _ | w
  · rw [hc, Option.none_orElse] at h
    rcases hf : findNode doc (isTag "title") with _ | t
    · simp only [hf] at h; exact Option.noConfusion h
    · simp only [hf] at h
      rcases hs : t.nodeString with _ | s
      · simp only [hs] at h; exact Option.noConfusion h
      · simp only [hs] at h
        by_cases hse : s.isEmpty
        · rw [if_pos hse] at h; exact absurd h (by simp)
        · rw [if_neg hse] at h
          obtain rfl := Option.some.inj h
          exact strip_idem s
  · rw [hc, Option.some_orElse] at h
    obtain rfl := Option.some.inj h
    exact contentOf_strip_fixed hc

theorem authorOf_strip_fixed {doc : NodeList} {v : List Char}
    (h : authorOf doc = some v) : strip v = v := by
  unfold authorOf at h
  rcases hf : ((findTagAttr doc "meta" "name" "author".data) <|>
      (findTagAttr doc "meta" "property" "article:author".data) <|>
      findSpanAuthorClass doc) with _ | el
  · simp only [hf] at h; exact Option.noConfusion h
  · simp only [hf] at h
    by_cases hm : (isTag "meta" el && attrTruthy el "content") = true
    · rw [if_pos hm] at h
      rcases hg : el.getAttr "content" with _ | c
      · simp only [hg] at h; exact Option.noConfusion h
      · simp only [hg] at h
        obtain rfl := Option.some.inj h
        exact strip_idem c
    · rw [if_neg hm] at h
      rcases hs : el.nodeString with _ | s
      · simp only [hs] at h; exact Option.noConfusion h
      · simp only [hs] at h
        by_cases hse : s.isEmpty
        · rw [if_pos hse] at h; exact absurd h (by simp)
        · rw [if_neg hse] at h
          obtain rfl := Option.some.inj h
          exact strip_idem s

theorem languageCodeOf_strip_fixed {doc : NodeList} {v : List Char}
    (h : languageCodeOf doc = some v) : strip v = v := by
  unfold languageCodeOf at h
  rcases hf : findNode doc (isTag "html") with _ | el
  · simp only [hf] at h; exact Option.noConfusion h
  · simp only [hf] at h
    rcases hg : el.getAttr "lang" with _ | s
    · simp only [hg] at h; exact Option.noConfusion h
    · simp only [hg] at h
      by_cases hse : s.isEmpty
      · rw [if_pos hse] at h; exact absurd h (by simp)
      · rw [if_neg hse] at h
        obtain rfl := Option.some.inj h
        exact strip_idem s

/-- C8, counterexample: the claim includes `canonicalUrl` among the trimmed
fields, but the source assigns `canonical["href"]` verbatim: a canonical link
with `href=" http://x "` yields a canonicalUrl carrying its whitespace. -/
theorem c8_counterexample :
    (extractMetadata (toNodeList [Node.el "head" [] [
        Node.el "link" [("rel", "canonical".data), ("href", " http://x ".data)] []]])
      "u".data).canonicalUrl = some " http://x ".data ∧
    strip " http://x ".data ≠ " http://x ".data := by
  refine ⟨?_, by decide⟩
  decide

/-- C8 (amended): every string field the metadata extractor populates
**except `canonicalUrl`** (title, description, image, source, author,
keywords, published, languageCode) is whitespace-trimmed, for every document
and URL; `canonicalUrl` is taken verbatim from the canonical link's `href`
(or is the caller-supplied URL). -/
theorem c8_fields_trimmed_except_canonical (doc : NodeList) (url : List Char) :
    (∀ v, (extractMetadata doc url).title = some v → strip v = v) ∧
    (∀ v, (extractMetadata doc url).description = some v → strip v = v) ∧
    (∀ v, (extractMetadata doc url).image = some v → strip v = v) ∧
    (∀ v, (extractMetadata doc url).source = some v → strip v = v) ∧
    (∀ v, (extractMetadata doc url).author = some v → strip v = v) ∧
    (∀ v, (extractMetadata doc url).keywords = some v → strip v = v) ∧
    (∀ v, (extractMetadata doc url).published = some v → strip v = v) ∧
    (∀ v, (extractMetadata doc url).languageCode = some v → strip v = v) := by
  simp only [extractMetadata]
  exact ⟨fun v h => titleOf_strip_fixed h,
    fun v h => contentOf_strip_fixed h,
    fun v h => contentOf_strip_fixed h,
    fun v h => contentOf_strip_fixed h,
    fun v h => authorOf_strip_fixed h,
    fun v h => contentOf_strip_fixed h,
    fun v h => contentOf_strip_fixed h,
    fun v h => languageCodeOf_strip_fixed h⟩

/-- C8 witness: on a document with a padded `og:title` content, the populated
title field is a fixed point of `strip`. -/
theorem c8_witness :
    strip (strip "  Padded title  ".data) = strip "  Padded title  ".data :=
  (c8_fields_trimmed_except_canonical (toNodeList [Node.el "head" [] [
      Node.el "meta" [("property", "og:title".data),
        ("content", "  Padded title  ".data)] []]]) "u".data).1
    (strip "  Padded title  ".data) (by decide)

/-! ### Claim C9 -/

theorem firstParagraphs_eq_find {l : List Node} {c : Node}
    (h : l.find? (fun n => !(paragraphsOf n).isEmpty) = some c) :
    firstParagraphs l = paragraphsOf c := by
  induction l with
  | nil => exact Option.noConfusion h
  | cons a t ih =>
    by_cases hp : (paragraphsOf a).isEmpty
    · have hpred : ¬((fun n => !(paragraphsOf n).isEmpty) a = true) := by
        simp [hp]
      rw [List.find?_cons_of_neg (p := fun n => !(paragraphsOf n).isEmpty) t hpred] at h
      unfold firstParagraphs
      rw [if_pos hp]
      exact ih h
    · have hpred : ((fun n => !(paragraphsOf n).isEmpty) a) = true := by
        simp [hp]
      rw [List.find?_cons_of_pos (p := fun n => !(paragraphsOf n).isEmpty) t hpred] at h
      obtain rfl := Option.some.inj h
      unfold firstParagraphs
      rw [if_neg hp]

/-- C9, counterexample: with no `<article>`, a `<main>` whose only paragraph
is short ("hi") is selected over a later `div[id*=content]` that holds a
qualifying (≥ 40 chars) paragraph, because the source's candidate loop checks
for *any* paragraph, not a qualifying one; the length filter then leaves the
extracted text empty, although a candidate container with a qualifying
paragraph exists. -/
theorem c9_counterexample :
    findNode (toNodeList [Node.el "body" [] [
        Node.el "main" [] [Node.el "p" [] [Node.text "hi".data]],
        Node.el "div" [("id", "content-zone".data)] [Node.el "p" []
          [Node.text "This paragraph is definitely longer than forty chars.".data]]]])
      (isTag "article") = none ∧
    extractText (toNodeList [Node.el "body" [] [
        Node.el "main" [] [Node.el "p" [] [Node.text "hi".data]],
        Node.el "div" [("id", "content-zone".data)] [Node.el "p" []
          [Node.text "This paragraph is definitely longer than forty chars.".data]]]])
      = [] ∧
    (∃ c ∈ selectCandidates (toNodeList [Node.el "body" [] [
        Node.el "main" [] [Node.el "p" [] [Node.text "hi".data]],
        Node.el "div" [("id", "content-zone".data)] [Node.el "p" []
          [Node.text "This paragraph is definitely longer than forty chars.".data]]]]),
      ∃ q ∈ paragraphsOf c, 40 ≤ (getText q).length) := by
  refine ⟨by decide, ?_, by decide⟩
  decide

/-- C9 (amended): when the document has no `<article>` element, body-text
extraction takes its paragraphs from the first container in document order
among `<main>`, a `<div>` whose id contains "content", or a `<div>` whose
class contains "content", that contains **at least one paragraph of any
length** (not necessarily a qualifying one); the ≥-40-characters filter is
applied only afterwards, so paragraphs whose text is shorter than 40
characters never appear in the output, but a container holding only short
paragraphs still wins and can make the output empty. -/
theorem c9_container_selection (doc : NodeList)
    (hart : findNode doc (isTag "article") = none) :
    (∀ c, (selectCandidates doc).find? (fun n => !(paragraphsOf n).isEmpty) = some c →
      extractParagraphs doc = paragraphsOf c ∧
      extractText doc = strip (List.intercalate "\n".data
        (((paragraphsOf c).map getText).filter fun t => !(t.length < 40)))) ∧
    (∀ t ∈ extractParagraphTexts doc, 40 ≤ t.length) := by
  constructor
  · intro c hfind
    have hps : extractParagraphs doc = paragraphsOf c := by
      have hne : (paragraphsOf c).isEmpty = false := by
        have hpred := List.find?_some hfind
        simpa using hpred
      unfold extractParagraphs
      rw [hart]
      rw [firstParagraphs_eq_find hfind, if_neg (by rw [hne]; exact Bool.false_ne_true)]
    refine ⟨hps, ?_⟩
    unfold extractText extractParagraphTexts
    rw [hps]
  · intro t ht
    unfold extractParagraphTexts at ht
    have hp := (List.mem_filter.mp ht).2
    simp only [Bool.not_eq_true', decide_eq_false_iff_not, not_lt] at hp
    exact hp

/-- C9 witness: a `<main>` with one long paragraph is the selected container,
and every kept paragraph text has length ≥ 40. -/
theorem c9_witness :
    findNode (toNodeList [Node.el "body" [] [Node.el "main" [] [Node.el "p" []
        [Node.text "This paragraph is definitely longer than forty chars.".data]]]])
      (isTag "article") = none ∧
    (∀ t ∈ extractParagraphTexts (toNodeList [Node.el "body" [] [
        Node.el "main" [] [Node.el "p" []
          [Node.text "This paragraph is definitely longer than forty chars.".data]]]]),
      40 ≤ t.length) :=
  ⟨by decide,
    (c9_container_selection (toNodeList [Node.el "body" [] [
        Node.el "main" [] [Node.el "p" []
          [Node.text "This paragraph is definitely longer than forty chars.".data]]]])
      (by decide)).2⟩

end News
